import Mathlib

/-!
Formal model of the minepixel-editor core: texture analysis, nearest-tile
matching, image-to-grid mapping, brush sizing, viewport transforms and
Bresenham line painting, with theorems settling the specification claims.

Python floats are modelled as exact rationals (`ℚ`), machine integers as
`Int`/`Nat`, optional fields as `Option`, and the fallible matcher
constructor as `Except`.
-/

namespace MinePixel

/-- `BlockTexture` from `texturepack/models.py`: tile identity, texture path,
optional cached average RGB, optional cached LAB color, optional size, and a
transparency flag. Paths are modelled as strings. -/
structure BlockTexture where
  block_id : String
  texture_path : String
  avg_color : Option (Int × Int × Int) := none
  lab_color : Option (ℚ × ℚ × ℚ) := none
  texture_size : Option (Nat × Nat) := none
  has_transparency : Bool := false
deriving DecidableEq

/-- One step of `TextureAnalyzer.analyze` on a single block
(`texturepack/analyzer.py`). The image inspection primitives
`_has_transparency`, `_compute_average_rgb` and `_rgb_to_lab` read pixel data
through PIL/skimage; they are abstracted as oracle functions of the texture
path, and the control flow of `analyze` is translated exactly: the
transparency flag is always set, colors are computed only for solid
textures and reset to `none` for transparent ones. -/
def analyzeBlock (hasTransp : String → Bool) (avgRgbOf : String → Int × Int × Int)
    (labOf : String → ℚ × ℚ × ℚ) (b : BlockTexture) : BlockTexture :=
  let ht := hasTransp b.texture_path
  if ht then
    { b with has_transparency := true, avg_color := none, lab_color := none }
  else
    { b with has_transparency := false,
             avg_color := some (avgRgbOf b.texture_path),
             lab_color := some (labOf b.texture_path) }

/-- `TextureAnalyzer.analyze` over a collection of blocks. -/
def analyze (hasTransp : String → Bool) (avgRgbOf : String → Int × Int × Int)
    (labOf : String → ℚ × ℚ × ℚ) (blocks : List BlockTexture) : List BlockTexture :=
  blocks.map (analyzeBlock hasTransp avgRgbOf labOf)

/-- Squared Euclidean distance in LAB space. `BlockMatcher._delta_e`
computes `sqrt` of this sum; since `Real.sqrt` is strictly monotone on
nonnegatives, every comparison the matcher makes between distances is
equivalent to the same comparison between these squares, so the scan in
`match_lab` is translated over the squares (the theorems below state
minimality in terms of `Real.sqrt` of this quantity, i.e. of the actual
Euclidean distance). -/
def deltaESq (lab1 lab2 : ℚ × ℚ × ℚ) : ℚ :=
  (lab1.1 - lab2.1) ^ 2 + (lab1.2.1 - lab2.2.1) ^ 2 + (lab1.2.2 - lab2.2.2) ^ 2

/-- The LAB color of a block, defaulting to the origin. The matcher only ever
reads `lab_color` of blocks that passed the constructor's filter, where it is
guaranteed present (in Python a missing value would raise at runtime). -/
def labColorD (b : BlockTexture) : ℚ × ℚ × ℚ := b.lab_color.getD (0, 0, 0)

/-- Squared LAB distance from a target color to a block's color. -/
def dE (lab : ℚ × ℚ × ℚ) (b : BlockTexture) : ℚ := deltaESq lab (labColorD b)

/-- The filter applied by `BlockMatcher.__init__`: keep blocks with a LAB
color, and unless `allow_transparency`, additionally without transparency. -/
def eligibleBlocks (blocks : List BlockTexture) (allow_transparency : Bool) :
    List BlockTexture :=
  if allow_transparency then
    blocks.filter (fun b => b.lab_color.isSome)
  else
    blocks.filter (fun b => b.lab_color.isSome && !b.has_transparency)

/-- `BlockMatcher.__init__`: filters the blocks and raises `ValueError` when
the eligible list is empty; modelled as `Except`, the matcher state being its
eligible block list. -/
def matcherInit (blocks : List BlockTexture) (allow_transparency : Bool) :
    Except String (List BlockTexture) :=
  let bs := eligibleBlocks blocks allow_transparency
  if bs.isEmpty then Except.error "No blocks with LAB color available for matching"
  else Except.ok bs

/-- One iteration of the scan in `BlockMatcher.match_lab`: the accumulator is
`none` while `best_block is None` / `best_distance == inf` (so the first block
always wins, every finite distance being `< inf`), and otherwise holds the
current best block with its distance; a block strictly closer than the best
replaces it (`d < best_distance`). -/
def matchStep (lab : ℚ × ℚ × ℚ) (acc : Option (BlockTexture × ℚ)) (b : BlockTexture) :
    Option (BlockTexture × ℚ) :=
  let d := deltaESq lab (labColorD b)
  match acc with
  | none => some (b, d)
  | some (_, bd) => if d < bd then some (b, d) else acc

/-- `BlockMatcher.match_lab`: linear scan keeping the first block attaining
the minimal distance; returns `none` on an empty block list (the source would
return `None`, which its constructor invariant rules out). -/
def match_lab (blocks : List BlockTexture) (lab : ℚ × ℚ × ℚ) : Option BlockTexture :=
  (blocks.foldl (matchStep lab) none).map Prod.fst

/-- `BrushTool.set_brush_size` (`tools/brush_tool.py`): clamp below at 1,
then round even values up to the next odd value; returns the stored size. -/
def set_brush_size (size : Int) : Int :=
  let s := if size < 1 then 1 else size
  if s % 2 = 0 then s + 1 else s

/-- The viewport-relevant state of `CanvasWidget` (`ui/canvas_widget.py`),
with the defaults assigned in `__init__`: canvas pixel size, grid dimensions,
original texture size `_block_size = 16`, zoom bounds and pan offsets. -/
structure CanvasWidget where
  width : ℚ := 800
  height : ℚ := 600
  grid_width : Nat := 0
  grid_height : Nat := 0
  block_size : ℚ := 16
  zoom_level : ℚ := 1
  min_zoom : ℚ := 1 / 10
  max_zoom : ℚ := 32
  pan_x : ℚ := 0
  pan_y : ℚ := 0
deriving DecidableEq

/-- `CanvasWidget._adjust_pan_for_zoom`: keep the grid point under
`(center_x, center_y)` fixed across the zoom change. -/
def adjustPanForZoom (c : CanvasWidget) (center_x center_y old_zoom new_zoom : ℚ) :
    CanvasWidget :=
  let gx := (center_x - c.pan_x) / old_zoom
  let gy := (center_y - c.pan_y) / old_zoom
  { c with pan_x := center_x - gx * new_zoom, pan_y := center_y - gy * new_zoom }

/-- `CanvasWidget.set_zoom`: clamp the requested zoom into
`[min_zoom, max_zoom]`, and when the level actually changed, adjust the pan
toward the given center (defaulting to the canvas center). -/
def set_zoom (c : CanvasWidget) (zoom : ℚ) (center_x center_y : Option ℚ) :
    CanvasWidget :=
  let old_zoom := c.zoom_level
  let new_zoom := max c.min_zoom (min c.max_zoom zoom)
  let c1 := { c with zoom_level := new_zoom }
  if old_zoom = new_zoom then c1
  else
    adjustPanForZoom c1 (center_x.getD (c.width / 2)) (center_y.getD (c.height / 2))
      old_zoom new_zoom

/-- The zoom-level-dependent multiplicative step of `CanvasWidget.zoom_in`. -/
def zoomInFactor (z : ℚ) : ℚ :=
  if z < 1 / 2 then 13 / 10
  else if z < 1 then 5 / 4
  else if z < 4 then 6 / 5
  else 23 / 20

/-- The zoom-level-dependent multiplicative step of `CanvasWidget.zoom_out`. -/
def zoomOutFactor (z : ℚ) : ℚ :=
  if z < 1 / 2 then 77 / 100
  else if z < 1 then 4 / 5
  else if z < 4 then 83 / 100
  else 87 / 100

/-- `CanvasWidget.zoom_in`. -/
def zoom_in (c : CanvasWidget) : CanvasWidget :=
  set_zoom c (c.zoom_level * zoomInFactor c.zoom_level) none none

/-- `CanvasWidget.zoom_out`. -/
def zoom_out (c : CanvasWidget) : CanvasWidget :=
  set_zoom c (c.zoom_level * zoomOutFactor c.zoom_level) none none

/-- `CanvasWidget.zoom_to_fit`: no-op on an empty grid; otherwise set the
zoom to fit the whole grid with a 40-pixel margin and center the pan. Note
the assignment to `_zoom_level` here is NOT clamped. -/
def zoom_to_fit (c : CanvasWidget) : CanvasWidget :=
  if c.grid_width = 0 ∨ c.grid_height = 0 then c
  else
    let grid_pixel_width := (c.grid_width : ℚ) * c.block_size
    let grid_pixel_height := (c.grid_height : ℚ) * c.block_size
    let zoom_x := (c.width - 40) / grid_pixel_width
    let zoom_y := (c.height - 40) / grid_pixel_height
    let z := min zoom_x zoom_y
    { c with zoom_level := z,
             pan_x := (c.width - grid_pixel_width * z) / 2,
             pan_y := (c.height - grid_pixel_height * z) / 2 }

/-- `CanvasWidget.reset_view`. -/
def reset_view (c : CanvasWidget) : CanvasWidget :=
  { c with zoom_level := 1, pan_x := 0, pan_y := 0 }

/-- Python's `int()` on a rational: truncation toward zero. -/
def ratTrunc (q : ℚ) : Int := if q < 0 then ⌈q⌉ else ⌊q⌋

/-- `CanvasWidget.screen_to_grid`: `int((screen - pan) / (block_size *
zoom))` componentwise, where `int()` truncates toward zero. -/
def screen_to_grid (c : CanvasWidget) (screen_x screen_y : ℚ) : Int × Int :=
  (ratTrunc ((screen_x - c.pan_x) / (c.block_size * c.zoom_level)),
   ratTrunc ((screen_y - c.pan_y) / (c.block_size * c.zoom_level)))

/-- `CanvasWidget.grid_to_screen`: top-left screen corner of a grid cell. -/
def grid_to_screen (c : CanvasWidget) (grid_x grid_y : Int) : ℚ × ℚ :=
  ((grid_x : ℚ) * c.block_size * c.zoom_level + c.pan_x,
   (grid_y : ℚ) * c.block_size * c.zoom_level + c.pan_y)

/-- The loop of `CanvasWidget._bresenham_line`, with an explicit fuel bound
on the number of iterations (the theorems prove the loop reaches `(x1, y1)`
and stops within `dx + dy + 1` iterations, which is the termination content
of the source's unbounded `while True`). Each iteration appends the current
point, stops at `(x1, y1)`, and otherwise advances `x` and/or `y` exactly as
the source does with `e2 = 2 * err`. -/
def bresenhamAux (x1 y1 sx sy dx dy : Int) :
    Nat → Int → Int → Int → List (Int × Int)
  | 0, _, _, _ => []
  | fuel + 1, err, x, y =>
    (x, y) ::
      (if x = x1 ∧ y = y1 then []
       else
         let e2 := 2 * err
         let err1 := if e2 > -dy then err - dy else err
         let x2 := if e2 > -dy then x + sx else x
         let err2 := if e2 < dx then err1 + dx else err1
         let y2 := if e2 < dx then y + sy else y
         bresenhamAux x1 y1 sx sy dx dy fuel err2 x2 y2)

/-- `CanvasWidget._bresenham_line`: all grid coordinates between `(x0, y0)`
and `(x1, y1)`. -/
def bresenham_line (x0 y0 x1 y1 : Int) : List (Int × Int) :=
  let dx : Int := (x1 - x0).natAbs
  let dy : Int := (y1 - y0).natAbs
  let sx : Int := if x0 < x1 then 1 else -1
  let sy : Int := if y0 < y1 then 1 else -1
  bresenhamAux x1 y1 sx sy dx dy ((x1 - x0).natAbs + (y1 - y0).natAbs + 1)
    (dx - dy) x0 y0

/-- One point of the painting loop in
`CanvasWidget.draw_line_between_blocks`: bounds-check against the grid
dimensions, then assign the block only when the cell's `block_id` differs
(the dirty-set bookkeeping and change callback carry no grid state and are
omitted). The grid is the source's row-major list of rows, indexed
`grid[y][x]`. -/
def paintCell (w h : Nat) (block : BlockTexture) (g : List (List BlockTexture))
    (p : Int × Int) : List (List BlockTexture) :=
  if 0 ≤ p.1 ∧ p.1 < (w : Int) ∧ 0 ≤ p.2 ∧ p.2 < (h : Int) then
    match g[p.2.toNat]? with
    | none => g
    | some row =>
      match row[p.1.toNat]? with
      | none => g
      | some old =>
        if old.block_id = block.block_id then g
        else g.set p.2.toNat (row.set p.1.toNat block)
  else g

/-- `CanvasWidget.draw_line_between_blocks`: paint every point of the
Bresenham line between the two cells, skipping out-of-bounds points. -/
def draw_line_between_blocks (w h : Nat) (g : List (List BlockTexture))
    (x0 y0 x1 y1 : Int) (block : BlockTexture) : List (List BlockTexture) :=
  (bresenham_line x0 y0 x1 y1).foldl (paintCell w h block) g

/-- Observation function on grids: the cell at `(x, y)`, if present. -/
def cellAt (g : List (List BlockTexture)) (p : Int × Int) : Option BlockTexture :=
  g[p.2.toNat]?.bind fun row => row[p.1.toNat]?

/-- The sequence of values `ImageToBlockMapper.map_image` passes to its
progress callback: after finishing row `y` of `height` it reports
`(y + 1) / height`. -/
def progressEvents (height : Nat) : List ℚ :=
  (List.range height).map fun y => (((y : ℕ) + 1 : ℕ) : ℚ) / (height : ℚ)

/-- `ImageToBlockMapper.map_image` (`minecraft/image_mapper.py`) after image
decoding: the pixel decode/resize/RGB→LAB conversion happens through
PIL/numpy/skimage and is abstracted as the `labPixels` matrix argument; each
pixel is matched through `match_lab` on the matcher's block list, and the
progress values emitted after each row are collected in order. -/
def map_image (blocks : List BlockTexture) (labPixels : List (List (ℚ × ℚ × ℚ))) :
    List (List (Option BlockTexture)) × List ℚ :=
  (labPixels.map fun row => row.map fun px => match_lab blocks px,
   progressEvents labPixels.length)

/-! Theorems -/

/-- Squared LAB distances are nonnegative. -/
theorem dE_nonneg (lab : ℚ × ℚ × ℚ) (b : BlockTexture) : 0 ≤ dE lab b := by
  unfold dE deltaESq
  positivity

/-- The scan of `match_lab`, started with current best `bb`, returns the
first block of `bb :: l` attaining the minimal squared distance: the result
decomposes `bb :: l` as `pre ++ b :: post` with every block of `pre` strictly
farther than `b` and every block of `post` at least as far. -/
theorem matchFold_first_argmin (lab : ℚ × ℚ × ℚ) :
    ∀ (l : List BlockTexture) (bb : BlockTexture),
    ∃ pre b post, bb :: l = pre ++ b :: post ∧
      l.foldl (matchStep lab) (some (bb, dE lab bb)) = some (b, dE lab b) ∧
      (∀ c ∈ pre, dE lab b < dE lab c) ∧
      (∀ c ∈ post, dE lab b ≤ dE lab c) := by
  intro l
  induction l with
  | nil =>
    intro bb
    exact ⟨[], bb, [], rfl, rfl, by simp, by simp⟩
  | cons c t ih =>
    intro bb
    by_cases hlt : dE lab c < dE lab bb
    · obtain ⟨pre, b, post, hdec, hfold, hpre, hpost⟩ := ih c
      have hstep : matchStep lab (some (bb, dE lab bb)) c = some (c, dE lab c) := by
        have hlt' : deltaESq lab (labColorD c) < deltaESq lab (labColorD bb) := hlt
        simp only [matchStep, dE]
        rw [if_pos hlt']
      refine ⟨bb :: pre, b, post, by rw [List.cons_append, ← hdec], ?_, ?_, hpost⟩
      · rw [List.foldl_cons, hstep, hfold]
      · have hble : dE lab b ≤ dE lab c := by
          cases pre with
          | nil =>
            injection hdec with h1 h2
            exact (congrArg (dE lab) h1).ge
          | cons p pre' =>
            injection hdec with h1 h2
            refine (hpre c ?_).le
            rw [h1]
            exact List.mem_cons_self p pre'
        intro x hx
        rcases List.mem_cons.mp hx with rfl | hx
        · exact lt_of_le_of_lt hble hlt
        · exact hpre x hx
    · obtain ⟨pre, b, post, hdec, hfold, hpre, hpost⟩ := ih bb
      have hstep : matchStep lab (some (bb, dE lab bb)) c = some (bb, dE lab bb) := by
        have hlt' : ¬ deltaESq lab (labColorD c) < deltaESq lab (labColorD bb) := hlt
        simp only [matchStep, dE]
        rw [if_neg hlt']
      cases pre with
      | nil =>
        injection hdec with h1 h2
        subst h1
        subst h2
        refine ⟨[], bb, c :: t, rfl, ?_, by simp, ?_⟩
        · rw [List.foldl_cons, hstep, hfold]
        · intro x hx
          rcases List.mem_cons.mp hx with rfl | hx
          · exact not_lt.mp hlt
          · exact hpost x hx
      | cons p pre' =>
        injection hdec with h1 h2
        subst h1
        subst h2
        refine ⟨bb :: c :: pre', b, post, by simp, ?_, ?_, hpost⟩
        · rw [List.foldl_cons, hstep, hfold]
        · have hbb : dE lab b < dE lab bb := hpre bb (List.mem_cons_self bb pre')
          intro x hx
          rcases List.mem_cons.mp hx with rfl | hx
          · exact hbb
          · rcases List.mem_cons.mp hx with rfl | hx
            · exact lt_of_lt_of_le hbb (not_lt.mp hlt)
            · exact hpre x (List.mem_cons_of_mem bb hx)

/-- C1: `match_lab` on a matcher built from a non-empty eligible list returns
the tile whose Euclidean LAB distance to the target is minimal, and on ties
the first such tile in list order: the list splits as `pre ++ b :: post`
where `b` is the returned tile, every tile of the whole list is at Euclidean
distance at least that of `b`, and every tile before `b` is strictly
farther. -/
theorem C1_match_lab_first_min (blocks : List BlockTexture) (lab : ℚ × ℚ × ℚ)
    (hne : blocks ≠ []) (hlab : ∀ b ∈ blocks, b.lab_color.isSome = true) :
    ∃ pre b post, blocks = pre ++ b :: post ∧
      match_lab blocks lab = some b ∧
      (∀ c ∈ blocks, Real.sqrt ((dE lab b : ℚ) : ℝ) ≤ Real.sqrt ((dE lab c : ℚ) : ℝ)) ∧
      (∀ c ∈ pre, Real.sqrt ((dE lab b : ℚ) : ℝ) < Real.sqrt ((dE lab c : ℚ) : ℝ)) := by
  obtain ⟨b0, rest, rfl⟩ := List.exists_cons_of_ne_nil hne
  obtain ⟨pre, b, post, hdec, hfold, hpre, hpost⟩ := matchFold_first_argmin lab rest b0
  have hml : match_lab (b0 :: rest) lab = some b := by
    unfold match_lab
    rw [List.foldl_cons]
    have h0 : matchStep lab none b0 = some (b0, dE lab b0) := rfl
    rw [h0, hfold]
    rfl
  refine ⟨pre, b, post, hdec, hml, ?_, ?_⟩
  · intro c hc
    rw [hdec] at hc
    have hle : dE lab b ≤ dE lab c := by
      rcases List.mem_append.mp hc with h | h
      · exact (hpre c h).le
      · rcases List.mem_cons.mp h with rfl | h
        · exact le_refl _
        · exact hpost c h
    exact Real.sqrt_le_sqrt (by exact_mod_cast hle)
  · intro c hc
    apply Real.sqrt_lt_sqrt
    · exact_mod_cast dE_nonneg lab b
    · exact_mod_cast hpre c hc

/-- Witness for C1: a red and a blue tile, target near blue. -/
theorem C1_match_lab_first_min_witness :
    ([{ block_id := "red", texture_path := "red.png", lab_color := some (10, 0, 0) },
      { block_id := "blue", texture_path := "blue.png", lab_color := some (50, 0, 0) }] :
        List BlockTexture) ≠ [] ∧
    (∀ b ∈ ([{ block_id := "red", texture_path := "red.png", lab_color := some (10, 0, 0) },
      { block_id := "blue", texture_path := "blue.png", lab_color := some (50, 0, 0) }] :
        List BlockTexture), b.lab_color.isSome = true) ∧
    (∃ pre b post,
      ([{ block_id := "red", texture_path := "red.png", lab_color := some (10, 0, 0) },
        { block_id := "blue", texture_path := "blue.png", lab_color := some (50, 0, 0) }] :
          List BlockTexture) = pre ++ b :: post ∧
      match_lab
        [{ block_id := "red", texture_path := "red.png", lab_color := some (10, 0, 0) },
         { block_id := "blue", texture_path := "blue.png", lab_color := some (50, 0, 0) }]
        (45, 0, 0) = some b ∧
      (∀ c ∈ ([{ block_id := "red", texture_path := "red.png", lab_color := some (10, 0, 0) },
        { block_id := "blue", texture_path := "blue.png", lab_color := some (50, 0, 0) }] :
          List BlockTexture),
        Real.sqrt ((dE (45, 0, 0) b : ℚ) : ℝ) ≤ Real.sqrt ((dE (45, 0, 0) c : ℚ) : ℝ)) ∧
      (∀ c ∈ pre,
        Real.sqrt ((dE (45, 0, 0) b : ℚ) : ℝ) < Real.sqrt ((dE (45, 0, 0) c : ℚ) : ℝ))) :=
  ⟨by decide, by decide,
    C1_match_lab_first_min
      [{ block_id := "red", texture_path := "red.png", lab_color := some (10, 0, 0) },
       { block_id := "blue", texture_path := "blue.png", lab_color := some (50, 0, 0) }]
      (45, 0, 0) (by decide) (by decide)⟩

/-- C6: after `TextureAnalyzer.analyze` runs over any collection of tiles,
every resulting tile has a defined LAB color if and only if its
`has_transparency` flag is false. -/
theorem C6_analyze_lab_iff_opaque (hasTransp : String → Bool)
    (avgRgbOf : String → Int × Int × Int) (labOf : String → ℚ × ℚ × ℚ)
    (blocks : List BlockTexture) :
    ∀ b ∈ analyze hasTransp avgRgbOf labOf blocks,
      b.lab_color.isSome = true ↔ b.has_transparency = false := by
  intro b hb
  simp only [analyze, List.mem_map] at hb
  obtain ⟨a, -, rfl⟩ := hb
  by_cases h : hasTransp a.texture_path <;> simp [analyzeBlock, h]

/-- Witness for C6 at a concrete one-element catalog. -/
theorem C6_analyze_lab_iff_opaque_witness :
    (analyzeBlock (fun _ => false) (fun _ => (0, 0, 0)) (fun _ => (0, 0, 0))
        { block_id := "stone", texture_path := "stone.png" }).lab_color.isSome = true ↔
    (analyzeBlock (fun _ => false) (fun _ => (0, 0, 0)) (fun _ => (0, 0, 0))
        { block_id := "stone", texture_path := "stone.png" }).has_transparency = false :=
  C6_analyze_lab_iff_opaque (fun _ => false) (fun _ => (0, 0, 0)) (fun _ => (0, 0, 0))
    [{ block_id := "stone", texture_path := "stone.png" }] _ (by simp [analyze])

/-- C7: `BlockMatcher.__init__` raises `ValueError` if and only if the
eligible set (blocks with a LAB color, and without transparency unless
allowed) is empty; on success the stored block list is that eligible set and
is non-empty. -/
theorem C7_matcherInit_spec (blocks : List BlockTexture) (allow_transparency : Bool) :
    ((∃ e, matcherInit blocks allow_transparency = Except.error e) ↔
      eligibleBlocks blocks allow_transparency = []) ∧
    (∀ m, matcherInit blocks allow_transparency = Except.ok m →
      m = eligibleBlocks blocks allow_transparency ∧ m ≠ []) := by
  simp only [matcherInit]
  cases he : (eligibleBlocks blocks allow_transparency).isEmpty with
  | true =>
    rw [List.isEmpty_iff] at he
    simp [he]
  | false =>
    have hne : eligibleBlocks blocks allow_transparency ≠ [] := by
      intro h0
      rw [h0] at he
      simp at he
    simp only [Bool.false_eq_true, if_false]
    refine ⟨by simp [hne], ?_⟩
    intro m hm
    rw [Except.ok.injEq] at hm
    exact ⟨hm.symm, hm ▸ hne⟩

/-- Witness for C7 at a concrete catalog: one opaque block with a LAB color. -/
theorem C7_matcherInit_spec_witness :
    [({ block_id := "stone", texture_path := "stone.png", lab_color := some (1, 2, 3) } :
        BlockTexture)] =
      eligibleBlocks
        [{ block_id := "stone", texture_path := "stone.png", lab_color := some (1, 2, 3) }]
        false ∧
    [({ block_id := "stone", texture_path := "stone.png", lab_color := some (1, 2, 3) } :
        BlockTexture)] ≠ [] :=
  (C7_matcherInit_spec
      [{ block_id := "stone", texture_path := "stone.png", lab_color := some (1, 2, 3) }]
      false).2 _ rfl

/-- C2 (counterexample): the claim that every stored brush size lies in
`[1, 15]` fails: `set_brush_size 16` stores `17`. -/
theorem C2_brush_size_counterexample :
    set_brush_size 16 = 17 ∧ ¬ set_brush_size 16 ≤ 15 := by decide

/-- C2 (amended): for every `n ≥ 1`, the stored brush size is odd and `≥ 1`:
it equals `n` when `n` is odd and `n + 1` when `n` is even; no upper bound is
applied by `set_brush_size` itself (the 1..15 range is only enforced by the
UI slider feeding it). -/
theorem C2_brush_size_normalization (n : Int) (hn : 1 ≤ n) :
    (set_brush_size n) % 2 = 1 ∧ 1 ≤ set_brush_size n ∧
    (n % 2 = 1 → set_brush_size n = n) ∧ (n % 2 = 0 → set_brush_size n = n + 1) := by
  simp only [set_brush_size]
  split_ifs <;> omega

/-- Witness for C2 at `n = 4`. -/
theorem C2_brush_size_normalization_witness :
    (1 ≤ (4 : Int)) ∧
    ((set_brush_size 4) % 2 = 1 ∧ 1 ≤ set_brush_size 4 ∧
      ((4 : Int) % 2 = 1 → set_brush_size 4 = 4) ∧
      ((4 : Int) % 2 = 0 → set_brush_size 4 = 4 + 1)) :=
  ⟨by decide, C2_brush_size_normalization 4 (by decide)⟩

/-- `set_zoom` stores exactly the clamp of the requested zoom into
`[min_zoom, max_zoom]` (the pan adjustment never touches the zoom level). -/
theorem set_zoom_zoom_level (c : CanvasWidget) (z : ℚ) (cx cy : Option ℚ) :
    (set_zoom c z cx cy).zoom_level = max c.min_zoom (min c.max_zoom z) := by
  simp only [set_zoom, adjustPanForZoom]
  split <;> rfl

/-- C3 (counterexample): starting from the default canvas (zoom 1, in
bounds) with a 1000 × 1 grid, `zoom_to_fit` stores a zoom of
`760 / 16000 = 19/400 < 0.1`, leaving the claimed range `[0.1, 32]`. -/
theorem C3_zoom_to_fit_counterexample :
    (({ grid_width := 1000, grid_height := 1 } : CanvasWidget).min_zoom ≤
        ({ grid_width := 1000, grid_height := 1 } : CanvasWidget).zoom_level ∧
      ({ grid_width := 1000, grid_height := 1 } : CanvasWidget).zoom_level ≤
        ({ grid_width := 1000, grid_height := 1 } : CanvasWidget).max_zoom) ∧
    (zoom_to_fit { grid_width := 1000, grid_height := 1 }).zoom_level =
      19 / 400 ∧
    (zoom_to_fit { grid_width := 1000, grid_height := 1 }).zoom_level <
      ({ grid_width := 1000, grid_height := 1 } : CanvasWidget).min_zoom := by
  refine ⟨⟨by norm_num, by norm_num⟩, ?_, ?_⟩ <;>
    · simp only [zoom_to_fit]
      norm_num [min_def]

/-- C3 (amended): `set_zoom`, `zoom_in`, `zoom_out` and `reset_view` all
leave the zoom level within the default bounds `[0.1, 32]` (the first three
unconditionally clamp, `reset_view` stores `1.0`); `zoom_to_fit` however does
not clamp and can leave the range (see the counterexample). -/
theorem C3_zoom_clamped (c : CanvasWidget) (z : ℚ) (cx cy : Option ℚ)
    (hmin : c.min_zoom = 1 / 10) (hmax : c.max_zoom = 32) :
    (c.min_zoom ≤ (set_zoom c z cx cy).zoom_level ∧
      (set_zoom c z cx cy).zoom_level ≤ c.max_zoom) ∧
    (c.min_zoom ≤ (zoom_in c).zoom_level ∧ (zoom_in c).zoom_level ≤ c.max_zoom) ∧
    (c.min_zoom ≤ (zoom_out c).zoom_level ∧ (zoom_out c).zoom_level ≤ c.max_zoom) ∧
    (c.min_zoom ≤ (reset_view c).zoom_level ∧ (reset_view c).zoom_level ≤ c.max_zoom) := by
  have hmm : c.min_zoom ≤ c.max_zoom := by rw [hmin, hmax]; norm_num
  have key : ∀ w : ℚ, c.min_zoom ≤ max c.min_zoom (min c.max_zoom w) ∧
      max c.min_zoom (min c.max_zoom w) ≤ c.max_zoom := by
    intro w
    exact ⟨le_max_left _ _, max_le hmm (min_le_left _ _)⟩
  refine ⟨?_, ?_, ?_, ?_⟩
  · rw [set_zoom_zoom_level]
    exact key z
  · rw [zoom_in, set_zoom_zoom_level]
    exact key _
  · rw [zoom_out, set_zoom_zoom_level]
    exact key _
  · constructor
    · simp only [reset_view]
      rw [hmin]
      norm_num
    · simp only [reset_view]
      rw [hmax]
      norm_num

/-- Witness for C3 (amended) at the default canvas and a requested zoom of
100. -/
theorem C3_zoom_clamped_witness :
    (({} : CanvasWidget).min_zoom ≤ (set_zoom {} 100 none none).zoom_level ∧
      (set_zoom {} 100 none none).zoom_level ≤ ({} : CanvasWidget).max_zoom) ∧
    (({} : CanvasWidget).min_zoom ≤ (zoom_in {}).zoom_level ∧
      (zoom_in {}).zoom_level ≤ ({} : CanvasWidget).max_zoom) ∧
    (({} : CanvasWidget).min_zoom ≤ (zoom_out {}).zoom_level ∧
      (zoom_out {}).zoom_level ≤ ({} : CanvasWidget).max_zoom) ∧
    (({} : CanvasWidget).min_zoom ≤ (reset_view {}).zoom_level ∧
      (reset_view {}).zoom_level ≤ ({} : CanvasWidget).max_zoom) :=
  C3_zoom_clamped {} 100 none none rfl rfl

/-- C4 (counterexample): with the default viewport (pan 0, zoom 1, tile
size 16), `screen_to_grid (-5, 0)` returns grid x-coordinate 0, not
`⌊-5 / 16⌋ = -1` as the claim's floor formula requires. -/
theorem C4_screen_to_grid_counterexample :
    ¬ ((screen_to_grid {} (-5) 0).1 =
        ⌊(((-5 : ℚ)) - ({} : CanvasWidget).pan_x) /
          (({} : CanvasWidget).block_size * ({} : CanvasWidget).zoom_level)⌋) := by
  norm_num [screen_to_grid, ratTrunc]
  intro h
  rw [show ⌈-(5 / 16 : ℚ)⌉ = 0 by rw [Int.ceil_eq_iff]; norm_num] at h
  omega

/-- C4 (amended): `screen_to_grid` applies Python `int()`, i.e. truncation
toward zero, to `(screen - pan) / (tile_size * zoom)` in each component; the
result agrees with the claimed floor exactly when the quotient is
nonnegative, and the function does return out-of-bounds coordinates
unchecked (negative quotients truncate toward zero instead of flooring). -/
theorem C4_screen_to_grid_trunc (c : CanvasWidget) (sx sy : ℚ) :
    screen_to_grid c sx sy =
      (ratTrunc ((sx - c.pan_x) / (c.block_size * c.zoom_level)),
       ratTrunc ((sy - c.pan_y) / (c.block_size * c.zoom_level))) ∧
    (0 ≤ (sx - c.pan_x) / (c.block_size * c.zoom_level) →
      (screen_to_grid c sx sy).1 =
        ⌊(sx - c.pan_x) / (c.block_size * c.zoom_level)⌋) ∧
    (0 ≤ (sy - c.pan_y) / (c.block_size * c.zoom_level) →
      (screen_to_grid c sx sy).2 =
        ⌊(sy - c.pan_y) / (c.block_size * c.zoom_level)⌋) := by
  refine ⟨rfl, ?_, ?_⟩ <;>
    · intro h
      simp only [screen_to_grid, ratTrunc]
      rw [if_neg (not_lt.mpr h)]

/-- Witness for C4 (amended) at the default viewport and screen point
`(37, 5)`. -/
theorem C4_screen_to_grid_trunc_witness :
    (screen_to_grid {} 37 5).1 =
      ⌊((37 : ℚ) - ({} : CanvasWidget).pan_x) /
        (({} : CanvasWidget).block_size * ({} : CanvasWidget).zoom_level)⌋ :=
  (C4_screen_to_grid_trunc {} 37 5).2.1 (by norm_num)

/-- Truncation toward zero is the identity on integers. -/
theorem ratTrunc_intCast (n : Int) : ratTrunc (n : ℚ) = n := by
  unfold ratTrunc
  split <;> simp

/-- C5: for every in-bounds grid cell and every viewport with positive zoom
and tile size, `screen_to_grid` is a left inverse of `grid_to_screen`. -/
theorem C5_round_trip (c : CanvasWidget) (gx gy : Int)
    (hz : 0 < c.zoom_level) (hbs : 0 < c.block_size)
    (hgx0 : 0 ≤ gx) (hgx1 : gx < (c.grid_width : Int))
    (hgy0 : 0 ≤ gy) (hgy1 : gy < (c.grid_height : Int)) :
    screen_to_grid c (grid_to_screen c gx gy).1 (grid_to_screen c gx gy).2 =
      (gx, gy) := by
  have hne : c.block_size * c.zoom_level ≠ 0 := ne_of_gt (mul_pos hbs hz)
  simp only [screen_to_grid, grid_to_screen]
  rw [add_sub_cancel_right, add_sub_cancel_right, mul_assoc, mul_assoc,
    mul_div_cancel_right₀ _ hne, mul_div_cancel_right₀ _ hne,
    ratTrunc_intCast, ratTrunc_intCast]

/-- Witness for C5: cell `(3, 2)` of an 8 × 8 grid under the default
viewport. -/
theorem C5_round_trip_witness :
    screen_to_grid { grid_width := 8, grid_height := 8 }
      (grid_to_screen { grid_width := 8, grid_height := 8 } 3 2).1
      (grid_to_screen { grid_width := 8, grid_height := 8 } 3 2).2 = (3, 2) :=
  C5_round_trip { grid_width := 8, grid_height := 8 } 3 2 (by norm_num)
    (by norm_num) (by norm_num) (by norm_num) (by norm_num) (by norm_num)

/-- The progress sequence of one mapping call is non-decreasing. -/
theorem progressEvents_chain' (n : ℕ) : List.Chain' (· ≤ ·) (progressEvents n) := by
  rw [List.chain'_iff_get]
  intro i hi
  unfold progressEvents at hi ⊢
  simp only [List.length_map, List.length_range] at hi
  have hn : (0 : ℚ) < (n : ℚ) := by
    have h0 : 0 < n := by omega
    exact_mod_cast h0
  simp only [List.get_eq_getElem, List.getElem_map, List.getElem_range]
  rw [div_le_div_iff_of_pos_right hn]
  push_cast
  linarith

/-- The final progress value of one mapping call over `n ≥ 1` rows is 1. -/
theorem progressEvents_getLast (n : ℕ) (hn : 1 ≤ n) :
    (progressEvents n).getLast? = some 1 := by
  obtain ⟨m, rfl⟩ : ∃ m, n = m + 1 := ⟨n - 1, by omega⟩
  unfold progressEvents
  rw [List.range_succ, List.map_append]
  simp only [List.map_cons, List.map_nil]
  rw [List.getLast?_concat]
  push_cast
  rw [div_self (by positivity)]

/-- C8: for every `map_image` call on an image with at least one row, the
progress values passed to the callback are monotonically non-decreasing and
the final value is exactly `1.0`. -/
theorem C8_progress_monotone (blocks : List BlockTexture)
    (labPixels : List (List (ℚ × ℚ × ℚ))) (h : 1 ≤ labPixels.length) :
    List.Chain' (· ≤ ·) (map_image blocks labPixels).2 ∧
    (map_image blocks labPixels).2.getLast? = some 1 := by
  exact ⟨progressEvents_chain' labPixels.length, progressEvents_getLast labPixels.length h⟩

/-- Witness for C8: a one-pixel image. -/
theorem C8_progress_monotone_witness :
    List.Chain' (· ≤ ·) (map_image [] [[((0 : ℚ), (0 : ℚ), (0 : ℚ))]]).2 ∧
    (map_image [] [[((0 : ℚ), (0 : ℚ), (0 : ℚ))]]).2.getLast? = some 1 :=
  C8_progress_monotone [] [[((0 : ℚ), (0 : ℚ), (0 : ℚ))]] (by decide)

/-- Correctness of the Bresenham loop, by induction on the fuel. The state is
parametrized by the remaining distances `a = (x1 - x) * sx` and
`b = (y1 - y) * sy` (so the current point is `(x1 - a * sx, y1 - b * sy)`),
with the loop invariants `0 ≤ a ≤ dx`, `0 ≤ b ≤ dy` and
`err = dx - dy + dy * a - dx * b`: under them the produced list starts at the
current point and ends exactly at `(x1, y1)`, within `a + b + 1`
iterations. -/
theorem bresenhamAux_spec (x1 y1 sx sy dx dy : Int)
    (hsx : sx = 1 ∨ sx = -1) (hsy : sy = 1 ∨ sy = -1) :
    ∀ (fuel : Nat), ∀ a b err : Int,
      0 ≤ a → a ≤ dx → 0 ≤ b → b ≤ dy →
      err = dx - dy + dy * a - dx * b →
      a + b < (fuel : Int) →
      (bresenhamAux x1 y1 sx sy dx dy fuel err (x1 - a * sx) (y1 - b * sy)).head? =
          some (x1 - a * sx, y1 - b * sy) ∧
      (bresenhamAux x1 y1 sx sy dx dy fuel err (x1 - a * sx) (y1 - b * sy)).getLast? =
          some (x1, y1) := by
  intro fuel
  induction fuel with
  | zero =>
    intro a b err ha0 hacap hb0 hbcap herr hfuel
    exfalso
    push_cast at hfuel
    omega
  | succ fuel ih =>
    intro a b err ha0 hacap hb0 hbcap herr hfuel
    by_cases hend : a = 0 ∧ b = 0
    · obtain ⟨ha, hb⟩ := hend
      subst ha
      subst hb
      constructor <;> simp [bresenhamAux]
    · have hcond : ¬(x1 - a * sx = x1 ∧ y1 - b * sy = y1) := by
        rcases hsx with rfl | rfl <;> rcases hsy with rfl | rfl <;>
          · intro hc
            exact hend ⟨by omega, by omega⟩
      by_cases hc1 : 2 * err > -dy
      · have h1a : 1 ≤ a := by
          by_contra hcon
          have ha : a = 0 := by omega
          have hb1 : 1 ≤ b := by
            by_contra hbcon
            exact hend ⟨ha, by omega⟩
          have hdx0 : 0 ≤ dx := le_trans ha0 hacap
          have hmul : dx * 1 ≤ dx * b := mul_le_mul_of_nonneg_left hb1 hdx0
          rw [ha] at herr
          linarith
        by_cases hc2 : 2 * err < dx
        · -- step in both x and y
          have h1b : 1 ≤ b := by
            by_contra hcon
            have hb : b = 0 := by omega
            have ha1 : 1 ≤ a := by
              by_contra hacon
              exact hend ⟨by omega, hb⟩
            have hdy0 : 0 ≤ dy := le_trans hb0 hbcap
            have hmul : dy * 1 ≤ dy * a := mul_le_mul_of_nonneg_left ha1 hdy0
            rw [hb] at herr
            linarith
          have hstep : bresenhamAux x1 y1 sx sy dx dy (fuel + 1) err
                (x1 - a * sx) (y1 - b * sy) =
              (x1 - a * sx, y1 - b * sy) ::
                bresenhamAux x1 y1 sx sy dx dy fuel (err - dy + dx)
                  (x1 - a * sx + sx) (y1 - b * sy + sy) := by
            simp only [bresenhamAux, if_neg hcond, if_pos hc1, if_pos hc2]
          have hX : x1 - a * sx + sx = x1 - (a - 1) * sx := by ring
          have hY : y1 - b * sy + sy = y1 - (b - 1) * sy := by ring
          rw [hstep, hX, hY]
          obtain ⟨hh, hl⟩ := ih (a - 1) (b - 1) (err - dy + dx) (by omega) (by omega)
            (by omega) (by omega) (by linear_combination herr)
            (by push_cast at hfuel ⊢; omega)
          refine ⟨rfl, ?_⟩
          cases hL : bresenhamAux x1 y1 sx sy dx dy fuel (err - dy + dx)
              (x1 - (a - 1) * sx) (y1 - (b - 1) * sy) with
          | nil =>
            rw [hL] at hh
            exact absurd hh (by simp)
          | cons q t =>
            rw [hL] at hl
            rw [List.getLast?_cons_cons]
            exact hl
        · -- step in x only
          have hstep : bresenhamAux x1 y1 sx sy dx dy (fuel + 1) err
                (x1 - a * sx) (y1 - b * sy) =
              (x1 - a * sx, y1 - b * sy) ::
                bresenhamAux x1 y1 sx sy dx dy fuel (err - dy)
                  (x1 - a * sx + sx) (y1 - b * sy) := by
            simp only [bresenhamAux, if_neg hcond, if_pos hc1, if_neg hc2]
          have hX : x1 - a * sx + sx = x1 - (a - 1) * sx := by ring
          rw [hstep, hX]
          obtain ⟨hh, hl⟩ := ih (a - 1) b (err - dy) (by omega) (by omega)
            (by omega) (by omega) (by linear_combination herr)
            (by push_cast at hfuel ⊢; omega)
          refine ⟨rfl, ?_⟩
          cases hL : bresenhamAux x1 y1 sx sy dx dy fuel (err - dy)
              (x1 - (a - 1) * sx) (y1 - b * sy) with
          | nil =>
            rw [hL] at hh
            exact absurd hh (by simp)
          | cons q t =>
            rw [hL] at hl
            rw [List.getLast?_cons_cons]
            exact hl
      · by_cases hc2 : 2 * err < dx
        · -- step in y only
          have h1b : 1 ≤ b := by
            by_contra hcon
            have hb : b = 0 := by omega
            have ha1 : 1 ≤ a := by
              by_contra hacon
              exact hend ⟨by omega, hb⟩
            have hdy0 : 0 ≤ dy := le_trans hb0 hbcap
            have hmul : dy * 1 ≤ dy * a := mul_le_mul_of_nonneg_left ha1 hdy0
            rw [hb] at herr
            linarith
          have hstep : bresenhamAux x1 y1 sx sy dx dy (fuel + 1) err
                (x1 - a * sx) (y1 - b * sy) =
              (x1 - a * sx, y1 - b * sy) ::
                bresenhamAux x1 y1 sx sy dx dy fuel (err + dx)
                  (x1 - a * sx) (y1 - b * sy + sy) := by
            simp only [bresenhamAux, if_neg hcond, if_neg hc1, if_pos hc2]
          have hY : y1 - b * sy + sy = y1 - (b - 1) * sy := by ring
          rw [hstep, hY]
          obtain ⟨hh, hl⟩ := ih a (b - 1) (err + dx) (by omega) (by omega)
            (by omega) (by omega) (by linear_combination herr)
            (by push_cast at hfuel ⊢; omega)
          refine ⟨rfl, ?_⟩
          cases hL : bresenhamAux x1 y1 sx sy dx dy fuel (err + dx)
              (x1 - a * sx) (y1 - (b - 1) * sy) with
          | nil =>
            rw [hL] at hh
            exact absurd hh (by simp)
          | cons q t =>
            rw [hL] at hl
            rw [List.getLast?_cons_cons]
            exact hl
        · -- no step possible: only when dx = dy = 0, i.e. already at the end
          exfalso
          push_neg at hc1 hc2
          have hdx0 : 0 ≤ dx := le_trans ha0 hacap
          have hdy0 : 0 ≤ dy := le_trans hb0 hbcap
          exact hend ⟨by omega, by omega⟩

/-- C10: `_bresenham_line` terminates on every integer input, returning a
finite list that begins at `(x0, y0)` and ends at `(x1, y1)` (the fuel bound
`dx + dy + 1` in the model is proved sufficient: the loop's break is reached,
which is the termination argument for the source's `while True`). -/
theorem C10_bresenham_endpoints (x0 y0 x1 y1 : Int) :
    (bresenham_line x0 y0 x1 y1).head? = some (x0, y0) ∧
    (bresenham_line x0 y0 x1 y1).getLast? = some (x1, y1) := by
  simp only [bresenham_line]
  have hSX : (if x0 < x1 then (1 : Int) else -1) = 1 ∨
      (if x0 < x1 then (1 : Int) else -1) = -1 := by
    split <;> simp
  have hSY : (if y0 < y1 then (1 : Int) else -1) = 1 ∨
      (if y0 < y1 then (1 : Int) else -1) = -1 := by
    split <;> simp
  have hx0 : x0 = x1 - ((x1 - x0).natAbs : Int) * (if x0 < x1 then (1 : Int) else -1) := by
    split <;> omega
  have hy0 : y0 = y1 - ((y1 - y0).natAbs : Int) * (if y0 < y1 then (1 : Int) else -1) := by
    split <;> omega
  obtain ⟨hh, hl⟩ := bresenhamAux_spec x1 y1 (if x0 < x1 then (1 : Int) else -1)
    (if y0 < y1 then (1 : Int) else -1) ((x1 - x0).natAbs : Int) ((y1 - y0).natAbs : Int)
    hSX hSY ((x1 - x0).natAbs + (y1 - y0).natAbs + 1)
    ((x1 - x0).natAbs : Int) ((y1 - y0).natAbs : Int)
    (((x1 - x0).natAbs : Int) - ((y1 - y0).natAbs : Int))
    (by positivity) (le_refl _) (by positivity) (le_refl _) (by ring)
    (by push_cast; omega)
  rw [← hx0] at hh hl
  rw [← hy0] at hh hl
  exact ⟨hh, hl⟩

/-- Case analysis of one painting step: either the grid is unchanged (out of
bounds, missing cell, or the cell already holds the block's id), or the cell
exists, differs, and is overwritten with the block. -/
theorem paintCell_cases (w h : Nat) (block : BlockTexture)
    (g : List (List BlockTexture)) (p : Int × Int) :
    (paintCell w h block g p = g ∧
      (¬(0 ≤ p.1 ∧ p.1 < (w : Int) ∧ 0 ≤ p.2 ∧ p.2 < (h : Int)) ∨
        g[p.2.toNat]? = none ∨
        (∃ row, g[p.2.toNat]? = some row ∧ row[p.1.toNat]? = none) ∨
        (∃ row old, g[p.2.toNat]? = some row ∧ row[p.1.toNat]? = some old ∧
          old.block_id = block.block_id))) ∨
    (∃ row old, g[p.2.toNat]? = some row ∧ row[p.1.toNat]? = some old ∧
      old.block_id ≠ block.block_id ∧
      paintCell w h block g p = g.set p.2.toNat (row.set p.1.toNat block)) := by
  unfold paintCell
  split
  · split
    next heq => exact Or.inl ⟨rfl, Or.inr (Or.inl heq)⟩
    next row heq =>
      split
      next heq2 => exact Or.inl ⟨rfl, Or.inr (Or.inr (Or.inl ⟨row, heq, heq2⟩))⟩
      next old heq2 =>
        split
        next hid => exact Or.inl ⟨rfl, Or.inr (Or.inr (Or.inr ⟨row, old, heq, heq2, hid⟩))⟩
        next hid => exact Or.inr ⟨row, old, heq, heq2, hid, rfl⟩
  next hnb => exact Or.inl ⟨rfl, Or.inl hnb⟩

/-- A painting step preserves the grid's shape. -/
theorem paintCell_wf (w h : Nat) (block : BlockTexture)
    (g : List (List BlockTexture)) (p : Int × Int)
    (hg : g.length = h) (hrows : ∀ row ∈ g, row.length = w) :
    (paintCell w h block g p).length = h ∧
    ∀ row ∈ paintCell w h block g p, row.length = w := by
  rcases paintCell_cases w h block g p with ⟨hsame, -⟩ | ⟨row, old, hrow, -, -, hset⟩
  · rw [hsame]
    exact ⟨hg, hrows⟩
  · rw [hset]
    constructor
    · rw [List.length_set]
      exact hg
    · intro r hr
      rcases List.mem_or_eq_of_mem_set hr with hr | rfl
      · exact hrows r hr
      · rw [List.length_set]
        exact hrows row (List.getElem?_mem hrow)

/-- After painting an in-bounds point of a well-formed grid, that cell holds
the block's id. -/
theorem paintCell_painted (w h : Nat) (block : BlockTexture)
    (g : List (List BlockTexture)) (p : Int × Int)
    (hg : g.length = h) (hrows : ∀ row ∈ g, row.length = w)
    (hb : 0 ≤ p.1 ∧ p.1 < (w : Int) ∧ 0 ≤ p.2 ∧ p.2 < (h : Int)) :
    ∃ b, cellAt (paintCell w h block g p) p = some b ∧
      b.block_id = block.block_id := by
  have hpy : p.2.toNat < g.length := by
    rw [hg]
    omega
  have hrow : g[p.2.toNat]? = some (g.get ⟨p.2.toNat, hpy⟩) := by
    rw [List.getElem?_eq_getElem hpy]
    rfl
  have hrlen : (g.get ⟨p.2.toNat, hpy⟩).length = w := hrows _ (List.getElem?_mem hrow)
  have hpx : p.1.toNat < (g.get ⟨p.2.toNat, hpy⟩).length := by
    rw [hrlen]
    omega
  have hold : (g.get ⟨p.2.toNat, hpy⟩)[p.1.toNat]? =
      some ((g.get ⟨p.2.toNat, hpy⟩).get ⟨p.1.toNat, hpx⟩) := by
    rw [List.getElem?_eq_getElem hpx]
    rfl
  rcases paintCell_cases w h block g p with ⟨hsame, hcase⟩ |
    ⟨row, old, hrow', hold', hne, hset⟩
  · rw [hsame]
    rcases hcase with hnb | hnone | ⟨row, hrow', hold'⟩ | ⟨row, old, hrow', hold', hid⟩
    · exact absurd hb hnb
    · rw [hrow] at hnone
      exact absurd hnone (by simp)
    · rw [hrow] at hrow'
      injection hrow' with hr
      rw [← hr] at hold'
      rw [hold] at hold'
      exact absurd hold' (by simp)
    · refine ⟨old, ?_, hid⟩
      unfold cellAt
      rw [hrow']
      exact hold'
  · refine ⟨block, ?_, rfl⟩
    rw [hset]
    have hrw : row = g.get ⟨p.2.toNat, hpy⟩ := by
      rw [hrow] at hrow'
      injection hrow' with hr
      exact hr.symm
    have hpxr : p.1.toNat < row.length := by
      rw [hrw]
      exact hpx
    unfold cellAt
    rw [List.getElem?_set_self hpy]
    show (row.set p.1.toNat block)[p.1.toNat]? = some block
    rw [List.getElem?_set_self hpxr]

/-- A painting step at any point preserves "this cell holds the block's
id". -/
theorem paintCell_preserve (w h : Nat) (block : BlockTexture)
    (g : List (List BlockTexture)) (p q : Int × Int)
    (hid : ∃ b, cellAt g p = some b ∧ b.block_id = block.block_id) :
    ∃ b, cellAt (paintCell w h block g q) p = some b ∧
      b.block_id = block.block_id := by
  obtain ⟨bp, hbp, hbpid⟩ := hid
  rcases paintCell_cases w h block g q with ⟨hsame, -⟩ |
    ⟨row, old, hrow, hold, -, hset⟩
  · rw [hsame]
    exact ⟨bp, hbp, hbpid⟩
  · rw [hset]
    have hqy : q.2.toNat < g.length := (List.getElem?_eq_some.mp hrow).1
    have hqx : q.1.toNat < row.length := (List.getElem?_eq_some.mp hold).1
    by_cases hyy : p.2.toNat = q.2.toNat
    · have hgoal : cellAt (g.set q.2.toNat (row.set q.1.toNat block)) p =
          (row.set q.1.toNat block)[p.1.toNat]? := by
        unfold cellAt
        rw [hyy, List.getElem?_set_self hqy]
        rfl
      have hbp' : row[p.1.toNat]? = some bp := by
        unfold cellAt at hbp
        rw [hyy, hrow] at hbp
        exact hbp
      by_cases hxx : p.1.toNat = q.1.toNat
      · refine ⟨block, ?_, rfl⟩
        rw [hgoal, hxx, List.getElem?_set_self hqx]
      · refine ⟨bp, ?_, hbpid⟩
        rw [hgoal, List.getElem?_set_ne (fun hc => hxx hc.symm)]
        exact hbp'
    · refine ⟨bp, ?_, hbpid⟩
      unfold cellAt at hbp ⊢
      rw [List.getElem?_set_ne (fun hc => hyy hc.symm)]
      exact hbp

/-- The painting fold preserves "this cell holds the block's id". -/
theorem foldl_paint_preserve (w h : Nat) (block : BlockTexture) (p : Int × Int) :
    ∀ (l : List (Int × Int)) (g : List (List BlockTexture)),
      (∃ b, cellAt g p = some b ∧ b.block_id = block.block_id) →
      ∃ b, cellAt (l.foldl (paintCell w h block) g) p = some b ∧
        b.block_id = block.block_id := by
  intro l
  induction l with
  | nil =>
    intro g hgp
    exact hgp
  | cons q t ihl =>
    intro g hgp
    exact ihl (paintCell w h block g q) (paintCell_preserve w h block g p q hgp)

/-- Any in-bounds member of the painted point list holds the block's id after
the painting fold over a well-formed grid. -/
theorem foldl_paint_covers (w h : Nat) (block : BlockTexture) (p : Int × Int)
    (hb : 0 ≤ p.1 ∧ p.1 < (w : Int) ∧ 0 ≤ p.2 ∧ p.2 < (h : Int)) :
    ∀ (l : List (Int × Int)) (g : List (List BlockTexture)),
      g.length = h → (∀ row ∈ g, row.length = w) → p ∈ l →
      ∃ b, cellAt (l.foldl (paintCell w h block) g) p = some b ∧
        b.block_id = block.block_id := by
  intro l
  induction l with
  | nil =>
    intro g _ _ hp
    exact absurd hp (List.not_mem_nil p)
  | cons q t ihl =>
    intro g hg hrows hp
    rcases List.mem_cons.mp hp with rfl | hp
    · exact foldl_paint_preserve w h block p t (paintCell w h block g p)
        (paintCell_painted w h block g p hg hrows hb)
    · obtain ⟨hg', hrows'⟩ := paintCell_wf w h block g q hg hrows
      exact ihl (paintCell w h block g q) hg' hrows' hp

/-- C9: after `draw_line_between_blocks`, every in-bounds cell on the
Bresenham path between the endpoints holds the given block (identified by its
`block_id`) — a stroke between non-adjacent cells leaves no gap. -/
theorem C9_draw_line_covers (g : List (List BlockTexture)) (w h : Nat)
    (x0 y0 x1 y1 : Int) (block : BlockTexture) (p : Int × Int)
    (hg : g.length = h) (hrows : ∀ row ∈ g, row.length = w)
    (hp : p ∈ bresenham_line x0 y0 x1 y1)
    (hb : 0 ≤ p.1 ∧ p.1 < (w : Int) ∧ 0 ≤ p.2 ∧ p.2 < (h : Int)) :
    ∃ b, cellAt (draw_line_between_blocks w h g x0 y0 x1 y1 block) p = some b ∧
      b.block_id = block.block_id :=
  foldl_paint_covers w h block p hb (bresenham_line x0 y0 x1 y1) g hg hrows hp

/-- Witness for C9: painting the single cell of a 1 × 1 grid. -/
theorem C9_draw_line_covers_witness :
    ∃ b, cellAt
        (draw_line_between_blocks 1 1
          [[{ block_id := "air", texture_path := "air.png" }]] 0 0 0 0
          { block_id := "stone", texture_path := "stone.png" }) (0, 0) = some b ∧
      b.block_id = ({ block_id := "stone", texture_path := "stone.png" } :
        BlockTexture).block_id :=
  C9_draw_line_covers [[{ block_id := "air", texture_path := "air.png" }]] 1 1
    0 0 0 0 { block_id := "stone", texture_path := "stone.png" } (0, 0)
    (by decide) (by decide) (by decide) (by decide)

end MinePixel
